import Mathlib

/-!
Shallow embedding of the SpMV benchmark core
(repository PARCO-Computing-2026-243947).

The embedding follows the most complete variant of the code, the modular
one under `src/`:
  * `src/CSR/CSRMatrix.cpp`           — CSR construction (`buildFromEntries`)
  * `src/MTX/MTXReader.cpp`           — coordinate reader (1-based → 0-based, sort)
  * `src/spmvSequential.cpp`          — sequential kernel + instrumented warm-up
  * `src/spmvParallel.cpp`            — parallel kernel + instrumented warm-up
  * `src/ResultsManager/ResultsManager.cpp` — metrics engine

Machine integers (`int`, `size_t`) of the source are modelled as `Nat`;
all indices in the programs of the repository are non-negative on valid
input.  The `double` values flowing through the kernel are modelled by an
arbitrary carrier type together with uninterpreted `add`/`mul`/`zero`
operations: IEEE-754 addition and multiplication are deterministic
functions, so two executions produce bit-for-bit identical results iff
they apply the same operations to the same arguments in the same order,
which is exactly what equality of the uninterpreted computations
expresses.  Durations and derived metric values are modelled over `ℚ`
(exact arithmetic standing for the deterministic `double` arithmetic of
the source).
-/

namespace SpmvBench

/-- Embeds `struct Entry { int row, col; double value; }`
(`src/MTX/MTXReader.h`).  The value type is a parameter (see the header
comment: `double` is modelled by an uninterpreted carrier). -/
structure Entry (α : Type) where
  row : Nat
  col : Nat
  value : α
deriving DecidableEq, Repr

/-- Embeds `class CSRMatrix` (`src/CSR/CSRMatrix.h`): raw arrays
`indexPointers` (length `rows+1`), `indices` and `data` (length `nnz`),
and the dimensions `rows`, `cols`, `nnz`. -/
structure CSRMatrix (α : Type) where
  indexPointers : List Nat
  indices : List Nat
  data : List α
  rows : Nat
  cols : Nat
  nnz : Nat
deriving DecidableEq, Repr

/-- `max_element` over the `row` fields, as used at
`src/CSR/CSRMatrix.cpp:33-34`.  For a non-empty list this is the maximum
row index (all rows are ≥ 0, so folding from 0 agrees with
`max_element`). -/
def maxRow {α : Type} (entries : List (Entry α)) : Nat :=
  entries.foldl (fun m e => max m e.row) 0

/-- `max_element` over the `col` fields (`src/CSR/CSRMatrix.cpp:35-36`). -/
def maxCol {α : Type} (entries : List (Entry α)) : Nat :=
  entries.foldl (fun m e => max m e.col) 0

/-- Embeds the backfill loop
`while (currentRow < target) { currentRow++; indexPointers[currentRow] = i; }`
(`src/CSR/CSRMatrix.cpp:52-55` and `63-66`).  The loop body runs exactly
`target - currentRow` times (0 when `target ≤ currentRow`); `k` is that
iteration count, so the writes hit positions
`currentRow+1, …, currentRow+k`. -/
def backfillAux (i : Nat) : Nat → Nat → List Nat → List Nat
  | _, 0, ip => ip
  | currentRow, k+1, ip => backfillAux i (currentRow+1) k (ip.set (currentRow+1) i)

/-- The backfill loop with its C-style bounds: runs from `currentRow`
up to `target`. -/
def backfill (i currentRow target : Nat) (ip : List Nat) : List Nat :=
  backfillAux i currentRow (target - currentRow) ip

/-- Embeds the main construction loop of `CSRMatrix::buildFromEntries`
(`src/CSR/CSRMatrix.cpp:48-61`): for each entry (with running index `i`)
backfill the row pointers up to the entry's row; after the backfill
`currentRow = max currentRow entry.row`.  The writes into `data` and
`indices` (`data[i] = entry.value; indices[i] = entry.col`) visit
`i = 0, 1, 2, …` in order and are modelled by the two `List.map`s in
`buildFromEntries` below.  Returns the final `currentRow` and the row
pointer array. -/
def fillLoop {α : Type} : List (Entry α) → Nat → Nat → List Nat → Nat × List Nat
  | [], _, currentRow, ip => (currentRow, ip)
  | e :: rest, i, currentRow, ip =>
      fillLoop rest (i+1) (max currentRow e.row) (backfill i currentRow e.row ip)

/-- Embeds `CSRMatrix::buildFromEntries` (`src/CSR/CSRMatrix.cpp:25-67`).
The C++ throws `runtime_error("Cannot build CSR: entries vector is empty.")`
on an empty input; this is modelled by `none`.  The freshly allocated
(uninitialised) `indexPointers` array is modelled as all zeros: position 0
is explicitly written (`indexPointers[0] = 0`, line 46) and every position
`1 … rows` is written exactly once by the backfill loops, so the initial
contents are never observable. -/
def buildFromEntries {α : Type} (entries : List (Entry α)) : Option (CSRMatrix α) :=
  if entries.isEmpty then none
  else
    let nnz := entries.length
    let rows := maxRow entries + 1
    let cols := maxCol entries + 1
    let ip0 := (List.replicate (rows + 1) 0).set 0 0
    let fl := fillLoop entries 0 0 ip0
    let ip := backfill nnz fl.1 rows fl.2
    some { indexPointers := ip
           indices := entries.map (fun e => e.col)
           data := entries.map (fun e => e.value)
           rows := rows, cols := cols, nnz := nnz }

/-- The scalar operations of the kernel, left uninterpreted: `add` and
`mul` stand for IEEE-754 `double` `+` and `*`.  No algebraic law is
assumed, so every theorem over `Ops` holds for the exact floating-point
operations: equality of results means the very same operation sequence,
i.e. bit-for-bit identity. -/
structure Ops (α : Type) where
  add : α → α → α
  mul : α → α → α
  zero : α

/-- Embeds the inner accumulation loop of the kernel
(`src/spmvSequential.cpp:98-100`, identical loop at
`src/spmvParallel.cpp:122-124`):
`for (j = rowStart; j < rowEnd; j++) sum += data[j] * x[indices[j]];`.
The loop body runs exactly `rowEnd - rowStart` times; `k` is that count
and `j` the running index.  Out-of-range reads (impossible on a
well-formed matrix) are modelled by the `getD` defaults. -/
def rowLoop {α : Type} (ops : Ops α) (m : CSRMatrix α) (x : List α) :
    Nat → Nat → α → α
  | _, 0, sum => sum
  | j, k+1, sum =>
      rowLoop ops m x (j+1) k
        (ops.add sum (ops.mul (m.data.getD j ops.zero) (x.getD (m.indices.getD j 0) ops.zero)))

/-- One row of the kernel: the private accumulator starts at `0.0` and
the inner loop runs over `[indexPointers[i], indexPointers[i+1])`
(`src/spmvSequential.cpp:97-101`). -/
def rowSum {α : Type} (ops : Ops α) (m : CSRMatrix α) (x : List α) (i : Nat) : α :=
  rowLoop ops m x (m.indexPointers.getD i 0)
    (m.indexPointers.getD (i+1) 0 - m.indexPointers.getD i 0) ops.zero

/-- Embeds the sequential kernel `SpMV` (`src/spmvSequential.cpp:92-107`):
`for (i = 0; i < rows; i++) y[i] = rowSum i;` writing a fresh output
array in row order.  The timing side channel (`duration`) is not part of
the numeric contract and is not modelled. -/
def SpMV {α : Type} (ops : Ops α) (m : CSRMatrix α) (x : List α) : List α :=
  (List.range m.rows).map (rowSum ops m x)

/-- One worker step of the parallel kernel
(`src/spmvParallel.cpp:120-126`): the worker that owns row `i` computes
the row's private sum and stores it at `y[i]`.  The stored value depends
only on the (read-only) matrix, vector and row index, never on the rest
of `y`. -/
def writeRow {α : Type} (ops : Ops α) (m : CSRMatrix α) (x : List α)
    (y : List α) (i : Nat) : List α :=
  y.set i (rowSum ops m x i)

/-- A worker processing one scheduled chunk of row indices, in order. -/
def runChunk {α : Type} (ops : Ops α) (m : CSRMatrix α) (x : List α)
    (chunk : List Nat) (y : List α) : List α :=
  chunk.foldl (writeRow ops m x) y

/-- Embeds the parallel kernel `SpMV` (`src/spmvParallel.cpp:101-134`).
The OpenMP runtime (`schedule(runtime)` with the static/dynamic/guided
policy and chunk size chosen at `omp_set_schedule`) partitions the row
range `[0, rows)` into chunks and hands each chunk to some worker; the
workers' writes target disjoint cells of `y`, so any interleaving of the
loop bodies is equivalent to executing the scheduled chunks in some
serial order.  The schedule is therefore modelled as an arbitrary list of
chunks, and `y0` models the freshly allocated (uninitialised) output
array. -/
def SpMVPar {α : Type} (ops : Ops α) (m : CSRMatrix α) (x : List α)
    (schedule : List (List Nat)) (y0 : List α) : List α :=
  schedule.foldl (fun y c => runChunk ops m x c y) y0

/-- Embeds the instrumented inner loop of `warmUp`
(`src/spmvParallel.cpp:155-161`, identically
`src/spmvSequential.cpp:119-125`): per executed body,
`bytesMoved += sizeof(double) + sizeof(int) + sizeof(double)` (8+4+8)
and `flopsMoved += 2`, alongside the same `sum` accumulation as the
kernel.  `k` is the iteration count `rowEnd - rowStart`. -/
def warmUpInner {α : Type} (ops : Ops α) (m : CSRMatrix α) (x : List α) :
    Nat → Nat → α → Nat → Nat → α × Nat × Nat
  | _, 0, sum, bytes, flops => (sum, bytes, flops)
  | j, k+1, sum, bytes, flops =>
      warmUpInner ops m x (j+1) k
        (ops.add sum (ops.mul (m.data.getD j ops.zero) (x.getD (m.indices.getD j 0) ops.zero)))
        (bytes + 8 + 4 + 8) (flops + 2)

/-- The first `n` rows of the instrumented warm-up loop
(`src/spmvParallel.cpp:153-164`): per row the inner instrumented loop
runs, `y[i] = sum`, and `bytesMoved += sizeof(double)` (8) for the
output write.  Returns `(y prefix, bytesMoved, flopsMoved)`. -/
def warmUpRows {α : Type} (ops : Ops α) (m : CSRMatrix α) (x : List α) :
    Nat → List α × Nat × Nat
  | 0 => ([], 0, 0)
  | n+1 =>
      let acc := warmUpRows ops m x n
      let lo := m.indexPointers.getD n 0
      let hi := m.indexPointers.getD (n+1) 0
      let r := warmUpInner ops m x lo (hi - lo) ops.zero acc.2.1 acc.2.2
      (acc.1 ++ [r.1], r.2.1 + 8, r.2.2)

/-- Result of one call to the warm-up function: the (discarded) output
vector, the two real-time counters, and `kernelPasses`, the number of
complete passes over the row range the call performs.  The body of
`warmUp` (`src/spmvParallel.cpp:137-173`, likewise
`src/spmvSequential.cpp:110-134`) is straight-line: it contains exactly
one instrumented row loop and no enclosing iteration loop, so a call
performs exactly one kernel pass; `main` invokes `warmUp` once
(`src/spmvParallel.cpp:268-272`).  There is no adaptive warm-up
controller anywhere in the source: no duration window, no stability
counter, no iteration cap, and no `requestedCap` parameter exist. -/
structure WarmUpResult (α : Type) where
  y : List α
  bytesMoved : Nat
  flopsMoved : Nat
  kernelPasses : Nat
deriving DecidableEq

/-- Embeds `warmUp` (`src/spmvParallel.cpp:137-173` /
`src/spmvSequential.cpp:110-134`): a single instrumented kernel pass with
both counters starting from 0 (the sequential variant zeroes them inside,
the parallel variant relies on `main` passing zero-initialised counters,
`src/spmvParallel.cpp:269`). -/
def warmUp {α : Type} (ops : Ops α) (m : CSRMatrix α) (x : List α) : WarmUpResult α :=
  let r := warmUpRows ops m x m.rows
  { y := r.1, bytesMoved := r.2.1, flopsMoved := r.2.2, kernelPasses := 1 }

/-- The CSR invariants of the data model (spec §3), as satisfied by the
builder's output: array lengths, `rowStart[0] = 0`, `rowStart[rows] = nnz`,
`rowStart` non-decreasing, per-row column indices sorted, and column
indices in range. -/
def CSRWellFormed {α : Type} (m : CSRMatrix α) : Prop :=
  m.indexPointers.length = m.rows + 1 ∧
  m.indices.length = m.nnz ∧
  m.data.length = m.nnz ∧
  m.indexPointers.getD 0 0 = 0 ∧
  m.indexPointers.getD m.rows 0 = m.nnz ∧
  List.Sorted (· ≤ ·) m.indexPointers ∧
  (∀ j < m.nnz, m.indices.getD j 0 < m.cols) ∧
  (∀ i < m.rows, ∀ j < m.nnz, m.indexPointers.getD i 0 ≤ j →
      j + 1 < m.indexPointers.getD (i+1) 0 →
      m.indices.getD j 0 ≤ m.indices.getD (j+1) 0)

instance {α : Type} (m : CSRMatrix α) : Decidable (CSRWellFormed m) := by
  unfold CSRWellFormed
  infer_instance

/-- Embeds the FLOPs/bytes selection of `ResultsManager::computeAllMetrics`
(`src/ResultsManager/ResultsManager.cpp:52-61`): the stored real-time
counters are replaced by the estimates `2*nnz` and
`8*nnz + 4*nnz + 4*(rows+1) + 8*cols + 8*rows` under the single joint
condition `flops == 0 || bytesMoved == 0`.  (`flops = 2.0 * nnz` goes
through `double`; for `nnz < 2^31` — `nnz` is an `int` — the conversion
is exact, so `2*nnz : Nat` is faithful.) -/
def selectFlopsBytes (nnz rows cols rtFlops rtBytes : Nat) : Nat × Nat :=
  if rtFlops = 0 ∨ rtBytes = 0 then
    (2 * nnz, (8 * nnz + 4 * nnz + 4 * (rows + 1) + 8 * cols) + 8 * rows)
  else
    (rtFlops, rtBytes)

/-- Embeds `sort(sortedDur.begin(), sortedDur.end())`
(`src/ResultsManager/ResultsManager.cpp:67-68`): `std::sort` with the
default `<` produces the ascending reordering of the samples;
`List.insertionSort` with `≤` is one implementation of that contract
(on a linear order the sorted permutation is unique up to ties, and ties
are indistinguishable values). -/
def sortDurations (samples : List ℚ) : List ℚ :=
  samples.insertionSort (· ≤ ·)

/-- Embeds `size_t(ceil(0.9 * n)) - 1` with the clamp
`if (idx90 >= n) idx90 = n - 1` (`src/ResultsManager/ResultsManager.cpp:70-71`).
The source computes `ceil(0.9 * n)` in `double`; for every `n < 2^31`
(`n` is a vector size bounded by `int` iterations) the rounding error of
`0.9 * n` is far below the distance to the nearest integer crossing, so
the result equals the exact `⌈9n/10⌉`, which over `Nat` is
`(9*n + 9) / 10`. -/
def percentileIdx (n : Nat) : Nat :=
  min ((9 * n + 9) / 10 - 1) (n - 1)

/-- The 90th-percentile duration (`src/ResultsManager/ResultsManager.cpp:67-73`):
sort ascending, take the nearest-rank index. -/
def duration90 (samples : List ℚ) : ℚ :=
  (sortDurations samples).getD (percentileIdx samples.length) 0

/-- The fields of `ResultsManager` written by `computeAllMetrics`
(`src/ResultsManager/ResultsManager.h`): the two counters and the four
derived metric values. -/
structure MetricsState where
  flops : Nat
  bytesMoved : Nat
  duration90 : ℚ
  gflops : ℚ
  bandwidthGBps : ℚ
  arithmeticIntensity : ℚ
deriving DecidableEq, Repr

/-- Embeds `ResultsManager::computeAllMetrics`
(`src/ResultsManager/ResultsManager.cpp:43-79`) as a state transformer on
the fields it reads and writes.  The two `throw`s (invalid matrix, empty
duration list) are modelled by `none`.  Derived values use exact `ℚ`
arithmetic in place of the deterministic `double` arithmetic of the
source (`seconds = duration90 / 1000`, `gflops = flops / seconds / 1e9`,
`bandwidth = bytes / (seconds * 1e9)`, `intensity = flops / bytes`). -/
def computeAllMetrics (nnz rows cols : Nat) (durations : List ℚ)
    (s : MetricsState) : Option MetricsState :=
  if rows = 0 ∨ cols = 0 then none
  else if durations = [] then none
  else
    let fb := selectFlopsBytes nnz rows cols s.flops s.bytesMoved
    let d90 := duration90 durations
    some { flops := fb.1
           bytesMoved := fb.2
           duration90 := d90
           gflops := (fb.1 : ℚ) / (d90 / 1000) / 1000000000
           bandwidthGBps := (fb.2 : ℚ) / ((d90 / 1000) * 1000000000)
           arithmeticIntensity := (fb.1 : ℚ) / (fb.2 : ℚ) }

/-- The comparator of `mtx::readMTX`'s sort call
(`src/MTX/MTXReader.cpp:54-56`), as a total preorder (`std::sort` with a
strict weak order `lt` sorts ascending w.r.t. the induced `≤`):
row-major, then column. -/
def entryLe {α : Type} (a b : Entry α) : Prop :=
  a.row < b.row ∨ (a.row = b.row ∧ a.col ≤ b.col)

instance {α : Type} (a b : Entry α) : Decidable (entryLe a b) := by
  unfold entryLe
  infer_instance

/-- Embeds the value-level part of `mtx::readMTX`
(`src/MTX/MTXReader.cpp:19-62`) after file I/O and token parsing: each
parsed 1-based triplet `(row, col, value)` becomes the 0-based entry
`(row-1, col-1, value)` (line 51), and the entries are sorted by
`(row, col)` (lines 54-56).  File access, comment skipping and the
dimension-line checks are I/O and are not part of the numeric core. -/
def readMTXEntries {α : Type} (triplets : List (Nat × Nat × α)) : List (Entry α) :=
  (triplets.map (fun t => Entry.mk (t.1 - 1) (t.2.1 - 1) t.2.2)).insertionSort entryLe

/-- `double` operations instantiated at `Int`: on the worked example all
values, products and partial sums are small integers, each exactly
representable in IEEE-754 binary64, and the kernel applies the same
operation sequence, so the integer results coincide with the `double`
results of the source. -/
def intOps : Ops Int := { add := Int.add, mul := Int.mul, zero := 0 }

/-- The 1-based triplets of the spec's end-to-end example (§8):
header `3 3 4`, triplets `(1,1,4) (1,3,9) (2,2,7) (3,1,5)`. -/
def exampleTriplets : List (Nat × Nat × Int) := [(1,1,4),(1,3,9),(2,2,7),(3,1,5)]

/-- The 0-based sorted entries the reader produces for
`exampleTriplets`. -/
def exampleEntries : List (Entry Int) :=
  [⟨0,0,4⟩, ⟨0,2,9⟩, ⟨1,1,7⟩, ⟨2,0,5⟩]

/-- The CSR form of the example matrix:
`rowStart=[0,2,3,4]`, `colIndex=[0,2,1,0]`, `values=[4,9,7,5]`. -/
def exampleCsr : CSRMatrix Int :=
  { indexPointers := [0,2,3,4], indices := [0,2,1,0], data := [4,9,7,5],
    rows := 3, cols := 3, nnz := 4 }

/-- The metrics-state record produced by one `computeAllMetrics` call on
a 1×1 matrix with one nonzero, one 1 ms sample, and cleared counters
(its fields are spelled exactly as the transformer computes them). -/
def exampleMetricsOut : MetricsState :=
  { flops := (selectFlopsBytes 1 1 1 0 0).1
    bytesMoved := (selectFlopsBytes 1 1 1 0 0).2
    duration90 := duration90 [1]
    gflops := ((selectFlopsBytes 1 1 1 0 0).1 : ℚ) / (duration90 [1] / 1000) / 1000000000
    bandwidthGBps := ((selectFlopsBytes 1 1 1 0 0).2 : ℚ) / ((duration90 [1] / 1000) * 1000000000)
    arithmeticIntensity := ((selectFlopsBytes 1 1 1 0 0).1 : ℚ) / ((selectFlopsBytes 1 1 1 0 0).2 : ℚ) }

/-! ### Helper lemmas: `List.set` / `List.getD` -/

theorem getD_set {α : Type} (l : List α) (n p : Nat) (a d : α) :
    (l.set n a).getD p d = if n = p ∧ n < l.length then a else l.getD p d := by
  induction l generalizing n p with
  | nil => simp
  | cons x xs ih =>
    cases n with
    | zero =>
      cases p with
      | zero => simp
      | succ p' => simp
    | succ n' =>
      cases p with
      | zero => simp
      | succ p' =>
        simp only [List.set_cons_succ, List.getD_cons_succ, List.length_cons, ih,
          Nat.succ_lt_succ_iff, Nat.succ_inj]

/-! ### Helper lemmas: the backfill loop of the CSR builder -/

theorem backfillAux_length (i : Nat) :
    ∀ (k currentRow : Nat) (ip : List Nat),
      (backfillAux i currentRow k ip).length = ip.length := by
  intro k
  induction k with
  | zero => intro currentRow ip; rfl
  | succ k ih =>
    intro currentRow ip
    simp [backfillAux, ih]

theorem backfillAux_getD (i : Nat) :
    ∀ (k currentRow p : Nat) (ip : List Nat),
      (backfillAux i currentRow k ip).getD p 0 =
        if currentRow + 1 ≤ p ∧ p ≤ currentRow + k ∧ p < ip.length then i
        else ip.getD p 0 := by
  intro k
  induction k with
  | zero =>
    intro currentRow p ip
    simp only [backfillAux]
    have : ¬(currentRow + 1 ≤ p ∧ p ≤ currentRow + 0 ∧ p < ip.length) := by
      rintro ⟨h1, h2, -⟩; omega
    rw [if_neg this]
  | succ k ih =>
    intro currentRow p ip
    simp only [backfillAux, ih, List.length_set, getD_set]
    by_cases hp : currentRow + 2 ≤ p ∧ p ≤ currentRow + 1 + k ∧ p < ip.length
    · have : currentRow + 1 ≤ p ∧ p ≤ currentRow + (k + 1) ∧ p < ip.length := by omega
      simp [hp, this]
    · simp only [hp, if_false]
      by_cases he : currentRow + 1 = p ∧ currentRow + 1 < ip.length
      · have : currentRow + 1 ≤ p ∧ p ≤ currentRow + (k + 1) ∧ p < ip.length := by omega
        simp [he, this]
      · have : ¬(currentRow + 1 ≤ p ∧ p ≤ currentRow + (k + 1) ∧ p < ip.length) := by omega
        simp [he, this]

/-- Positions at or below `currentRow` are untouched by the backfill loop. -/
theorem backfill_getD_low (i currentRow target p : Nat) (ip : List Nat)
    (hp : p ≤ currentRow) :
    (backfill i currentRow target ip).getD p 0 = ip.getD p 0 := by
  unfold backfill
  rw [backfillAux_getD]
  have : ¬(currentRow + 1 ≤ p ∧ p ≤ currentRow + (target - currentRow) ∧ p < ip.length) := by
    omega
  simp [this]

/-- The row-pointer prefix `[0..cr]` is non-decreasing. -/
def MonoPrefix (cr : Nat) (ip : List Nat) : Prop :=
  ∀ p q, p ≤ q → q ≤ cr → ip.getD p 0 ≤ ip.getD q 0

/-- Effect of one backfill call on the builder invariant: it preserves the
array length, extends the monotone prefix from `cr` to `max cr target`,
and leaves the top of the prefix at a value ≤ `i`. -/
theorem backfill_step (i cr target : Nat) (ip : List Nat)
    (htarget : target < ip.length)
    (hmono : MonoPrefix cr ip) (hlast : ip.getD cr 0 ≤ i) :
    (backfill i cr target ip).length = ip.length ∧
    MonoPrefix (max cr target) (backfill i cr target ip) ∧
    (backfill i cr target ip).getD (max cr target) 0 ≤ i := by
  have hlen : (backfill i cr target ip).length = ip.length := backfillAux_length ..
  have hget : ∀ p, (backfill i cr target ip).getD p 0 =
      if cr + 1 ≤ p ∧ p ≤ target ∧ p < ip.length then i else ip.getD p 0 := by
    intro p
    unfold backfill
    rw [backfillAux_getD]
    by_cases hc : cr + 1 ≤ p ∧ p ≤ cr + (target - cr) ∧ p < ip.length
    · have : cr + 1 ≤ p ∧ p ≤ target ∧ p < ip.length := by omega
      simp [hc, this]
    · have : ¬(cr + 1 ≤ p ∧ p ≤ target ∧ p < ip.length) := by omega
      simp [hc, this]
  refine ⟨hlen, ?_, ?_⟩
  · intro p q hpq hq
    rw [hget p, hget q]
    by_cases hqc : cr + 1 ≤ q ∧ q ≤ target ∧ q < ip.length
    · simp only [hqc, if_true]
      by_cases hpc : cr + 1 ≤ p ∧ p ≤ target ∧ p < ip.length
      · simp [hpc]
      · have hple : p ≤ cr := by omega
        simp only [hpc, if_false]
        exact le_trans (hmono p cr hple le_rfl) hlast
    · have hqle : q ≤ cr := by omega
      have hple : ¬(cr + 1 ≤ p ∧ p ≤ target ∧ p < ip.length) := by omega
      simp only [hqc, hple, if_false]
      exact hmono p q hpq hqle
  · rw [hget]
    by_cases hc : cr < target
    · have : cr + 1 ≤ max cr target ∧ max cr target ≤ target ∧ max cr target < ip.length := by
        omega
      simp [this]
    · have hm : max cr target = cr := by omega
      rw [hm]
      have : ¬(cr + 1 ≤ cr ∧ cr ≤ target ∧ cr < ip.length) := by omega
      rw [if_neg this]
      exact hlast

/-! ### Helper lemmas: the entry loop of the CSR builder -/

theorem foldl_max_row_init {α : Type} (entries : List (Entry α)) :
    ∀ acc : Nat, acc ≤ entries.foldl (fun c e => max c e.row) acc := by
  induction entries with
  | nil => intro acc; exact le_rfl
  | cons e rest ih =>
    intro acc
    exact le_trans (Nat.le_max_left acc e.row) (ih (max acc e.row))

theorem foldl_max_row_mem {α : Type} (entries : List (Entry α)) (e : Entry α)
    (he : e ∈ entries) :
    ∀ acc : Nat, e.row ≤ entries.foldl (fun c x => max c x.row) acc := by
  induction entries with
  | nil => cases he
  | cons x rest ih =>
    intro acc
    rcases List.mem_cons.mp he with h | h
    · subst h
      exact le_trans (Nat.le_max_right acc e.row) (foldl_max_row_init rest _)
    · rw [List.foldl_cons]
      exact ih h _

theorem fillLoop_fst {α : Type} (entries : List (Entry α)) :
    ∀ (i cr : Nat) (ip : List Nat),
      (fillLoop entries i cr ip).1 = entries.foldl (fun c e => max c e.row) cr := by
  induction entries with
  | nil => intro i cr ip; rfl
  | cons e rest ih => intro i cr ip; simpa [fillLoop] using ih (i+1) _ _

/-- The builder invariant is preserved through the whole entry loop:
length is unchanged, the monotone prefix extends to the final
`currentRow`, its top value stays below the final entry index, and
already-finalised positions (≤ the initial `currentRow`) are not
rewritten. -/
theorem fillLoop_inv {α : Type} (entries : List (Entry α)) :
    ∀ (i cr : Nat) (ip : List Nat),
      (∀ e ∈ entries, e.row < ip.length) →
      MonoPrefix cr ip →
      ip.getD cr 0 ≤ i →
      (fillLoop entries i cr ip).2.length = ip.length ∧
      MonoPrefix (fillLoop entries i cr ip).1 (fillLoop entries i cr ip).2 ∧
      (fillLoop entries i cr ip).2.getD (fillLoop entries i cr ip).1 0 ≤ i + entries.length ∧
      (∀ p ≤ cr, (fillLoop entries i cr ip).2.getD p 0 = ip.getD p 0) := by
  induction entries with
  | nil =>
    intro i cr ip _ hmono hlast
    exact ⟨rfl, hmono, le_trans hlast (Nat.le_add_right ..), fun _ _ => rfl⟩
  | cons e rest ih =>
    intro i cr ip hrows hmono hlast
    have hrow : e.row < ip.length := hrows e (List.mem_cons_self ..)
    obtain ⟨hlen1, hmono1, hlast1⟩ := backfill_step i cr e.row ip hrow hmono hlast
    have hrest : ∀ x ∈ rest, x.row < (backfill i cr e.row ip).length := by
      intro x hx; rw [hlen1]; exact hrows x (List.mem_cons_of_mem _ hx)
    have hlast1' : (backfill i cr e.row ip).getD (max cr e.row) 0 ≤ i + 1 :=
      le_trans hlast1 (Nat.le_succ i)
    obtain ⟨hL, hM, hT, hP⟩ := ih (i+1) (max cr e.row) (backfill i cr e.row ip)
      hrest hmono1 hlast1'
    refine ⟨by simpa [fillLoop, hlen1] using hL, by simpa [fillLoop] using hM, ?_, ?_⟩
    · have : i + 1 + rest.length = i + (e :: rest).length := by simp; omega
      simpa [fillLoop, this] using hT
    · intro p hp
      have h1 : (fillLoop rest (i+1) (max cr e.row) (backfill i cr e.row ip)).2.getD p 0 =
          (backfill i cr e.row ip).getD p 0 :=
        hP p (le_trans hp (Nat.le_max_left ..))
      have h2 : (backfill i cr e.row ip).getD p 0 = ip.getD p 0 :=
        backfill_getD_low i cr e.row p ip hp
      rw [h2] at h1
      simpa [fillLoop] using h1

theorem getD_replicate_zero (L p : Nat) : (List.replicate L (0:Nat)).getD p 0 = 0 := by
  induction L generalizing p with
  | zero => simp
  | succ L ih =>
    cases p with
    | zero => simp [List.replicate]
    | succ p' => simp [List.replicate, ih p']

/-- The row-pointer array produced by `buildFromEntries`: correct length,
`rowStart[0] = 0`, `rowStart[rows] = nnz`, non-decreasing, and the
dimension fields of the result. -/
theorem backfill_length (i cr t : Nat) (ip : List Nat) :
    (backfill i cr t ip).length = ip.length :=
  backfillAux_length ..

theorem build_rowStart_props {α : Type} (entries : List (Entry α)) (m : CSRMatrix α)
    (hne : entries ≠ []) (hb : buildFromEntries entries = some m) :
    m.indexPointers.length = m.rows + 1 ∧
    m.indexPointers.getD 0 0 = 0 ∧
    m.indexPointers.getD m.rows 0 = m.nnz ∧
    List.Sorted (· ≤ ·) m.indexPointers ∧
    m.rows = maxRow entries + 1 ∧
    m.cols = maxCol entries + 1 ∧
    m.nnz = entries.length := by
  have hne' : ¬(entries.isEmpty = true) := fun h => hne (List.isEmpty_iff.mp h)
  simp only [buildFromEntries, if_neg hne'] at hb
  obtain rfl := (Option.some.inj hb).symm
  have hip0len : ((List.replicate (maxRow entries + 1 + 1) (0:Nat)).set 0 0).length =
      maxRow entries + 1 + 1 := by simp
  have hip0get : ∀ p, ((List.replicate (maxRow entries + 1 + 1) (0:Nat)).set 0 0).getD p 0 = 0 := by
    intro p
    rw [getD_set]
    split
    · rfl
    · exact getD_replicate_zero _ p
  have hrowslt : ∀ e ∈ entries,
      e.row < ((List.replicate (maxRow entries + 1 + 1) (0:Nat)).set 0 0).length := by
    intro e he
    rw [hip0len]
    have := foldl_max_row_mem entries e he 0
    have hmr : entries.foldl (fun c x => max c x.row) 0 = maxRow entries := rfl
    omega
  have hmono0 : MonoPrefix 0 ((List.replicate (maxRow entries + 1 + 1) (0:Nat)).set 0 0) := by
    intro p q _ _
    rw [hip0get, hip0get]
  have hlast0 : ((List.replicate (maxRow entries + 1 + 1) (0:Nat)).set 0 0).getD 0 0 ≤ 0 := by
    rw [hip0get]
  obtain ⟨hLf, hMf, hTf, hPf⟩ := fillLoop_inv entries 0 0 _ hrowslt hmono0 hlast0
  have hcr : (fillLoop entries 0 0
      ((List.replicate (maxRow entries + 1 + 1) (0:Nat)).set 0 0)).1 = maxRow entries :=
    fillLoop_fst entries 0 0 _
  have hfllen : (fillLoop entries 0 0
      ((List.replicate (maxRow entries + 1 + 1) (0:Nat)).set 0 0)).2.length =
      maxRow entries + 1 + 1 := hLf.trans hip0len
  have htlt : maxRow entries + 1 < (fillLoop entries 0 0
      ((List.replicate (maxRow entries + 1 + 1) (0:Nat)).set 0 0)).2.length := by
    rw [hfllen]; omega
  have hTf' : (fillLoop entries 0 0
      ((List.replicate (maxRow entries + 1 + 1) (0:Nat)).set 0 0)).2.getD
      (fillLoop entries 0 0
        ((List.replicate (maxRow entries + 1 + 1) (0:Nat)).set 0 0)).1 0 ≤
      entries.length := by
    have := hTf
    omega
  obtain ⟨hlen2, hmono2, -⟩ := backfill_step entries.length _ (maxRow entries + 1) _
    htlt hMf hTf'
  refine ⟨?_, ?_, ?_, ?_, rfl, rfl, rfl⟩
  · rw [backfill_length, hfllen]
  · rw [backfill_getD_low _ _ _ _ _ (by omega)]
    rw [hPf 0 le_rfl]
    exact hip0get 0
  · show (backfill entries.length _ (maxRow entries + 1) _).getD (maxRow entries + 1) 0 =
      entries.length
    unfold backfill
    rw [backfillAux_getD]
    rw [if_pos]
    refine ⟨by rw [hcr], by omega, ?_⟩
    rw [hfllen]
    omega
  · have hmax : max (fillLoop entries 0 0
        ((List.replicate (maxRow entries + 1 + 1) (0:Nat)).set 0 0)).1
        (maxRow entries + 1) = maxRow entries + 1 := by
      rw [hcr]; omega
    rw [hmax] at hmono2
    refine List.pairwise_iff_getElem.mpr ?_
    intro a b h1 h2 hab
    have hblen : b ≤ maxRow entries + 1 := by
      have := h2
      rw [backfill_length, hfllen] at this
      omega
    have := hmono2 a b (le_of_lt hab) hblen
    rwa [List.getD_eq_getElem _ _ h1, List.getD_eq_getElem _ _ h2] at this

/-! ### Helper lemmas: the kernel -/

/-- The step function of the per-row accumulation, named for reuse in
statements: one loop body `sum += data[j] * x[indices[j]]`. -/
def rowStep {α : Type} (ops : Ops α) (m : CSRMatrix α) (x : List α) (acc : α) (j : Nat) : α :=
  ops.add acc (ops.mul (m.data.getD j ops.zero) (x.getD (m.indices.getD j 0) ops.zero))

theorem rowLoop_eq_foldl {α : Type} (ops : Ops α) (m : CSRMatrix α) (x : List α) :
    ∀ (k j : Nat) (s : α),
      rowLoop ops m x j k s = (List.range' j k).foldl (rowStep ops m x) s := by
  intro k
  induction k with
  | zero => intro j s; rfl
  | succ k ih =>
    intro j s
    rw [List.range'_succ]
    simpa [rowLoop, rowStep] using ih (j+1) _

theorem SpMV_length {α : Type} (ops : Ops α) (m : CSRMatrix α) (x : List α) :
    (SpMV ops m x).length = m.rows := by
  simp [SpMV]

theorem SpMV_getD {α : Type} (ops : Ops α) (m : CSRMatrix α) (x : List α)
    (i : Nat) (hi : i < m.rows) (d : α) :
    (SpMV ops m x).getD i d = rowSum ops m x i := by
  have h : i < (SpMV ops m x).length := by rw [SpMV_length]; exact hi
  rw [List.getD_eq_getElem _ _ h]
  simp [SpMV]

theorem runChunk_length {α : Type} (ops : Ops α) (m : CSRMatrix α) (x : List α)
    (c : List Nat) : ∀ y : List α, (runChunk ops m x c y).length = y.length := by
  induction c with
  | nil => intro y; rfl
  | cons hd tl ih =>
    intro y
    simp only [runChunk, List.foldl_cons] at *
    rw [ih]
    simp [writeRow]

theorem runChunk_getD {α : Type} (ops : Ops α) (m : CSRMatrix α) (x : List α)
    (c : List Nat) : ∀ (y : List α) (p : Nat) (d : α), p < y.length →
      (runChunk ops m x c y).getD p d =
        if p ∈ c then rowSum ops m x p else y.getD p d := by
  induction c with
  | nil => intro y p d _; simp [runChunk]
  | cons hd tl ih =>
    intro y p d hp
    have h1 : (runChunk ops m x (hd :: tl) y) = runChunk ops m x tl (writeRow ops m x y hd) := by
      simp [runChunk]
    rw [h1, ih _ p d (by simp [writeRow]; omega)]
    by_cases htl : p ∈ tl
    · simp [htl]
    · simp only [htl, if_false, List.mem_cons]
      by_cases hhd : p = hd
      · subst hhd
        simp [writeRow, getD_set, hp]
      · have h2 : ¬(hd = p ∧ hd < y.length) := fun h => hhd h.1.symm
        have h3 : (writeRow ops m x y hd).getD p d = y.getD p d := by
          rw [writeRow, getD_set, if_neg h2]
        rw [h3]
        simp [hhd]

theorem SpMVPar_length {α : Type} (ops : Ops α) (m : CSRMatrix α) (x : List α)
    (schedule : List (List Nat)) : ∀ y0 : List α,
      (SpMVPar ops m x schedule y0).length = y0.length := by
  induction schedule with
  | nil => intro y0; rfl
  | cons c rest ih =>
    intro y0
    simp only [SpMVPar, List.foldl_cons] at *
    rw [ih, runChunk_length]

theorem SpMVPar_getD {α : Type} (ops : Ops α) (m : CSRMatrix α) (x : List α)
    (schedule : List (List Nat)) : ∀ (y0 : List α) (p : Nat) (d : α), p < y0.length →
      (SpMVPar ops m x schedule y0).getD p d =
        if ∃ c ∈ schedule, p ∈ c then rowSum ops m x p else y0.getD p d := by
  induction schedule with
  | nil => intro y0 p d _; simp [SpMVPar]
  | cons c rest ih =>
    intro y0 p d hp
    have h1 : SpMVPar ops m x (c :: rest) y0 = SpMVPar ops m x rest (runChunk ops m x c y0) := by
      simp [SpMVPar]
    rw [h1, ih _ p d (by rw [runChunk_length]; exact hp)]
    by_cases hrest : ∃ cc ∈ rest, p ∈ cc
    · have : ∃ cc ∈ c :: rest, p ∈ cc := by
        obtain ⟨cc, h1, h2⟩ := hrest
        exact ⟨cc, List.mem_cons_of_mem _ h1, h2⟩
      simp [hrest, this]
    · simp only [hrest, if_false]
      rw [runChunk_getD ops m x c y0 p d hp]
      by_cases hc : p ∈ c
      · have : ∃ cc ∈ c :: rest, p ∈ cc := ⟨c, List.mem_cons_self .., hc⟩
        simp [hc, this]
      · have : ¬∃ cc ∈ c :: rest, p ∈ cc := by
          rintro ⟨cc, hcc, hpcc⟩
          rcases List.mem_cons.mp hcc with h | h
          · exact hc (h ▸ hpcc)
          · exact hrest ⟨cc, h, hpcc⟩
        simp [hc, this, hrest]

/-- Core equivalence: as long as the schedule only names valid rows and
every row is handed to some worker, the parallel kernel writes exactly
the sequential result, whatever the chunk shapes, chunk order, or number
of workers. -/
theorem SpMVPar_eq_SpMV {α : Type} (ops : Ops α) (m : CSRMatrix α) (x : List α)
    (schedule : List (List Nat)) (y0 : List α)
    (hlen : y0.length = m.rows)
    (hcover : ∀ i < m.rows, ∃ c ∈ schedule, i ∈ c) :
    SpMVPar ops m x schedule y0 = SpMV ops m x := by
  apply List.ext_getElem
  · rw [SpMVPar_length, SpMV_length, hlen]
  · intro i h1 h2
    have hi : i < m.rows := by rwa [SpMV_length] at h2
    have hiy : i < y0.length := by rw [hlen]; exact hi
    have e1 : (SpMVPar ops m x schedule y0)[i] =
        (SpMVPar ops m x schedule y0).getD i ops.zero := by
      rw [List.getD_eq_getElem _ _ h1]
    have e2 : (SpMV ops m x)[i] = (SpMV ops m x).getD i ops.zero := by
      rw [List.getD_eq_getElem _ _ h2]
    rw [e1, e2, SpMV_getD ops m x i hi, SpMVPar_getD ops m x schedule y0 i ops.zero hiy]
    simp [hcover i hi]

/-! ### Helper lemmas: the instrumented warm-up counters -/

theorem warmUpInner_counts {α : Type} (ops : Ops α) (m : CSRMatrix α) (x : List α) :
    ∀ (k j : Nat) (s : α) (b f : Nat),
      (warmUpInner ops m x j k s b f).2.1 = b + 20 * k ∧
      (warmUpInner ops m x j k s b f).2.2 = f + 2 * k := by
  intro k
  induction k with
  | zero => intro j s b f; exact ⟨rfl, rfl⟩
  | succ k ih =>
    intro j s b f
    obtain ⟨h1, h2⟩ := ih (j+1)
      (ops.add s (ops.mul (m.data.getD j ops.zero) (x.getD (m.indices.getD j 0) ops.zero)))
      (b + 8 + 4 + 8) (f + 2)
    constructor
    · rw [warmUpInner, h1]; omega
    · rw [warmUpInner, h2]; omega

theorem sorted_getD_mono (l : List Nat) (hs : List.Sorted (· ≤ ·) l)
    (a b : Nat) (hab : a ≤ b) (hb : b < l.length) : l.getD a 0 ≤ l.getD b 0 := by
  rcases Nat.lt_or_ge a b with h | h
  · have ha : a < l.length := lt_trans h hb
    rw [List.getD_eq_getElem _ _ ha, List.getD_eq_getElem _ _ hb]
    exact List.pairwise_iff_getElem.mp hs a b ha hb h
  · have : a = b := le_antisymm hab h
    rw [this]

theorem warmUpRows_counts {α : Type} (ops : Ops α) (m : CSRMatrix α) (x : List α)
    (h0 : m.indexPointers.getD 0 0 = 0) :
    ∀ n : Nat, (∀ i < n, m.indexPointers.getD i 0 ≤ m.indexPointers.getD (i+1) 0) →
      (warmUpRows ops m x n).2.1 = 20 * m.indexPointers.getD n 0 + 8 * n ∧
      (warmUpRows ops m x n).2.2 = 2 * m.indexPointers.getD n 0 := by
  intro n
  induction n with
  | zero =>
    intro _
    constructor <;> · simp only [warmUpRows]; rw [h0]
  | succ n ih =>
    intro hadj
    obtain ⟨ihb, ihf⟩ := ih (fun i hi => hadj i (Nat.lt_succ_of_lt hi))
    have hle : m.indexPointers.getD n 0 ≤ m.indexPointers.getD (n+1) 0 :=
      hadj n (Nat.lt_succ_self n)
    obtain ⟨hcb, hcf⟩ := warmUpInner_counts ops m x
      (m.indexPointers.getD (n+1) 0 - m.indexPointers.getD n 0)
      (m.indexPointers.getD n 0) ops.zero
      (warmUpRows ops m x n).2.1 (warmUpRows ops m x n).2.2
    constructor
    · show (warmUpRows ops m x (n+1)).2.1 = _
      rw [warmUpRows]
      simp only
      rw [hcb, ihb]
      omega
    · show (warmUpRows ops m x (n+1)).2.2 = _
      rw [warmUpRows]
      simp only
      rw [hcf, ihf]
      omega

/-- The counters of one warm-up call on a matrix whose row-pointer array
satisfies the CSR invariants. -/
theorem warmUp_counters {α : Type} (ops : Ops α) (m : CSRMatrix α) (x : List α)
    (hwf : CSRWellFormed m) :
    (warmUp ops m x).bytesMoved = 20 * m.nnz + 8 * m.rows ∧
    (warmUp ops m x).flopsMoved = 2 * m.nnz := by
  obtain ⟨hlen, -, -, h0, hrows, hsorted, -, -⟩ := hwf
  have hadj : ∀ i < m.rows, m.indexPointers.getD i 0 ≤ m.indexPointers.getD (i+1) 0 := by
    intro i hi
    exact sorted_getD_mono _ hsorted i (i+1) (Nat.le_succ i) (by omega)
  obtain ⟨hb, hf⟩ := warmUpRows_counts ops m x h0 m.rows hadj
  rw [hrows] at hb hf
  exact ⟨hb, hf⟩

/-! ### Helper lemmas: the metrics engine -/

theorem estimate_bytes_ne_zero (nnz rows cols : Nat) :
    (8 * nnz + 4 * nnz + 4 * (rows + 1) + 8 * cols) + 8 * rows ≠ 0 := by
  omega

/-- Applying the estimate-or-real-time selection to its own output
changes nothing: the selected pair is a fixed point. -/
theorem selectFlopsBytes_idem (nnz rows cols a b : Nat) :
    selectFlopsBytes nnz rows cols
      (selectFlopsBytes nnz rows cols a b).1 (selectFlopsBytes nnz rows cols a b).2 =
      selectFlopsBytes nnz rows cols a b := by
  by_cases h : a = 0 ∨ b = 0
  · have h1 : selectFlopsBytes nnz rows cols a b =
        (2 * nnz, (8 * nnz + 4 * nnz + 4 * (rows + 1) + 8 * cols) + 8 * rows) := by
      rw [selectFlopsBytes, if_pos h]
    rw [h1]
    by_cases h2 : 2 * nnz = 0
    · rw [selectFlopsBytes, if_pos (Or.inl h2)]
    · rw [selectFlopsBytes, if_neg]
      rintro (hc | hc)
      · exact h2 hc
      · exact estimate_bytes_ne_zero nnz rows cols hc
  · have h1 : selectFlopsBytes nnz rows cols a b = (a, b) := by
      rw [selectFlopsBytes, if_neg h]
    rw [h1, selectFlopsBytes, if_neg h]

/-! ### Claim theorems -/

/-- C1 (counterexample): the claim says the warm-up controller would run
6 kernel iterations for a constant duration sequence and 20 for a
never-stabilising one.  The warm-up of the source
(`src/spmvParallel.cpp:137-173`, called once from `main`) performs
exactly one kernel pass whatever the observed durations — here on the
spec's own example matrix — so it can reach neither 6 iterations nor a
20-iteration cap; no duration window, stability counter or cap exists in
the code. -/
theorem warmUp_pass_count_refutes_adaptive_claim :
    (warmUp intOps exampleCsr [1,1,1]).kernelPasses = 1 ∧
    (warmUp intOps exampleCsr [1,1,1]).kernelPasses ≠ 6 ∧
    (warmUp intOps exampleCsr [1,1,1]).kernelPasses ≠ 20 := by
  decide

/-- C1 (amended): the warm-up phase executes the kernel exactly once —
a single instrumented pass over the row range — for every matrix and
input vector; there is no adaptive stability loop, no sliding duration
window, and no iteration cap. -/
theorem warmUp_executes_exactly_one_pass {α : Type} (ops : Ops α)
    (m : CSRMatrix α) (x : List α) :
    (warmUp ops m x).kernelPasses = 1 :=
  rfl

/-- C2: on a well-formed CSR matrix and an input vector of matching
length, the parallel kernel produces a result bit-for-bit equal to the
sequential kernel, for every schedule that assigns only valid rows and
covers every row — which subsumes every thread count, partitioning
policy (static, dynamic, guided) and chunk size — and for every initial
content of the freshly allocated output array.  Equality of the
uninterpreted-operation results means equality of the floating-point
results of the source. -/
theorem spmv_parallel_eq_sequential {α : Type} (ops : Ops α) (m : CSRMatrix α)
    (x : List α) (schedule : List (List Nat)) (y0 : List α)
    (_hwf : CSRWellFormed m) (_hx : x.length = m.cols)
    (_hvalid : ∀ c ∈ schedule, ∀ i ∈ c, i < m.rows)
    (hlen : y0.length = m.rows)
    (hcover : ∀ i < m.rows, ∃ c ∈ schedule, i ∈ c) :
    SpMVPar ops m x schedule y0 = SpMV ops m x :=
  SpMVPar_eq_SpMV ops m x schedule y0 hlen hcover

/-- C2 witness: the example matrix, with an out-of-order two-chunk
schedule (row 1 first, then rows 0 and 2). -/
theorem spmv_parallel_eq_sequential_witness :
    SpMVPar intOps exampleCsr [1,1,1] [[1],[0,2]] [0,0,0] =
      SpMV intOps exampleCsr [1,1,1] :=
  spmv_parallel_eq_sequential intOps exampleCsr [1,1,1] [[1],[0,2]] [0,0,0]
    (by decide) (by decide) (by decide) (by decide) (by decide)

/-- C3: for each row `i`, the kernel's output is the left-to-right fold,
in ascending `j` over `[rowStart[i], rowStart[i+1])`, of
`sum += values[j] * x[colIndex[j]]`, starting from the private
accumulator `0`. -/
theorem spmv_row_formula {α : Type} (ops : Ops α) (m : CSRMatrix α)
    (x : List α) (i : Nat) (_hwf : CSRWellFormed m) (_hx : x.length = m.cols)
    (hi : i < m.rows) :
    (SpMV ops m x).getD i ops.zero =
      (List.range' (m.indexPointers.getD i 0)
          (m.indexPointers.getD (i+1) 0 - m.indexPointers.getD i 0)).foldl
        (rowStep ops m x) ops.zero := by
  rw [SpMV_getD ops m x i hi]
  exact rowLoop_eq_foldl ops m x _ _ _

/-- C3 witness: row 0 of the example matrix. -/
theorem spmv_row_formula_witness :
    (SpMV intOps exampleCsr [1,1,1]).getD 0 intOps.zero =
      (List.range' (exampleCsr.indexPointers.getD 0 0)
          (exampleCsr.indexPointers.getD (0+1) 0 - exampleCsr.indexPointers.getD 0 0)).foldl
        (rowStep intOps exampleCsr [1,1,1]) intOps.zero :=
  spmv_row_formula intOps exampleCsr [1,1,1] 0 (by decide) (by decide) (by decide)

/-- C4: for a non-empty entry sequence sorted by `(row, col)`, the built
`rowStart` array has length `rows+1`, is non-decreasing, starts at 0 and
ends at `nnz`, with `rows = max row + 1`, `cols = max col + 1`, and
`nnz` the number of entries. -/
theorem csr_build_rowStart_invariants {α : Type} (entries : List (Entry α))
    (m : CSRMatrix α) (hne : entries ≠ [])
    (_hsorted : List.Pairwise entryLe entries)
    (hb : buildFromEntries entries = some m) :
    m.indexPointers.length = m.rows + 1 ∧
    List.Sorted (· ≤ ·) m.indexPointers ∧
    m.indexPointers.getD 0 0 = 0 ∧
    m.indexPointers.getD m.rows 0 = m.nnz ∧
    m.rows = maxRow entries + 1 ∧
    m.cols = maxCol entries + 1 ∧
    m.nnz = entries.length := by
  obtain ⟨h1, h2, h3, h4, h5, h6, h7⟩ := build_rowStart_props entries m hne hb
  exact ⟨h1, h4, h2, h3, h5, h6, h7⟩

/-- C4 witness: the example entry sequence. -/
theorem csr_build_rowStart_invariants_witness :
    exampleCsr.indexPointers.length = exampleCsr.rows + 1 ∧
    List.Sorted (· ≤ ·) exampleCsr.indexPointers ∧
    exampleCsr.indexPointers.getD 0 0 = 0 ∧
    exampleCsr.indexPointers.getD exampleCsr.rows 0 = exampleCsr.nnz ∧
    exampleCsr.rows = maxRow exampleEntries + 1 ∧
    exampleCsr.cols = maxCol exampleEntries + 1 ∧
    exampleCsr.nnz = exampleEntries.length :=
  csr_build_rowStart_invariants exampleEntries exampleCsr (by decide) (by decide) (by decide)

/-- C5: the end-to-end example: the reader turns the 1-based triplets of
header `3 3 4` into the 0-based sorted entries, the builder produces
`rowStart=[0,2,3,4]`, `colIndex=[0,2,1,0]`, `values=[4,9,7,5]` with
dimensions 3×3 and 4 nonzeros, and the kernel on `x=[1,1,1]` returns
`y=[13,7,5]` (all quantities are small integers, exactly representable
in binary64, so the `Int` computation coincides with the source's
`double` computation). -/
theorem end_to_end_example :
    readMTXEntries exampleTriplets = exampleEntries ∧
    buildFromEntries (readMTXEntries exampleTriplets) = some exampleCsr ∧
    SpMV intOps exampleCsr [1,1,1] = [13,7,5] := by
  decide

/-- C6 (counterexample): with a nonzero real-time FLOP count (7) but a
zero byte count, the claim says the FLOP value used is 7; the code's
joint test `flops == 0 || bytesMoved == 0` replaces it by the estimate
`2*nnz = 2`. -/
theorem metrics_selection_not_independent :
    (selectFlopsBytes 1 1 1 7 0).1 ≠ 7 ∧ (selectFlopsBytes 1 1 1 7 0).1 = 2 * 1 := by
  decide

/-- C6 (amended): the real-time counters are used exactly when both are
nonzero; if either is zero, both are replaced by the estimates `2*nnz`
and `8*nnz + 4*nnz + 4*(rows+1) + 8*cols + 8*rows` — the selection is
joint, not independent per counter. -/
theorem metrics_selection_joint (nnz rows cols rtFlops rtBytes : Nat) :
    (rtFlops ≠ 0 ∧ rtBytes ≠ 0 →
      selectFlopsBytes nnz rows cols rtFlops rtBytes = (rtFlops, rtBytes)) ∧
    (rtFlops = 0 ∨ rtBytes = 0 →
      selectFlopsBytes nnz rows cols rtFlops rtBytes =
        (2 * nnz, (8 * nnz + 4 * nnz + 4 * (rows + 1) + 8 * cols) + 8 * rows)) := by
  constructor
  · intro h
    rw [selectFlopsBytes, if_neg]
    rintro (hc | hc)
    · exact h.1 hc
    · exact h.2 hc
  · intro h
    rw [selectFlopsBytes, if_pos h]

/-- C6 witness: both counters nonzero — the real-time pair is used. -/
theorem metrics_selection_joint_witness :
    selectFlopsBytes 3 2 2 5 9 = (5, 9) :=
  (metrics_selection_joint 3 2 2 5 9).1 ⟨by decide, by decide⟩

/-- C7: the 90th-percentile duration is the element of the ascending
sort of the samples at 0-based index `⌈0.9·n⌉ - 1` clamped to `n-1`
(the sort is a sorted permutation of the samples), and on the ten
ascending samples `[1,…,10]` it is 9, the value at index 8. -/
theorem percentile_nearest_rank :
    (∀ samples : List ℚ, samples ≠ [] →
      (sortDurations samples).Perm samples ∧
      List.Sorted (· ≤ ·) (sortDurations samples) ∧
      duration90 samples = (sortDurations samples).getD
        (min ((9 * samples.length + 9) / 10 - 1) (samples.length - 1)) 0) ∧
    duration90 [1,2,3,4,5,6,7,8,9,10] = 9 := by
  constructor
  · intro samples _
    exact ⟨List.perm_insertionSort _ _, List.sorted_insertionSort _ _, rfl⟩
  · decide

/-- C7 witness: an unsorted two-element sample list. -/
theorem percentile_nearest_rank_witness :
    (sortDurations [(3:ℚ), 1]).Perm [(3:ℚ), 1] ∧
    List.Sorted (· ≤ ·) (sortDurations [(3:ℚ), 1]) ∧
    duration90 [(3:ℚ), 1] = (sortDurations [(3:ℚ), 1]).getD
      (min ((9 * ([(3:ℚ), 1]).length + 9) / 10 - 1) (([(3:ℚ), 1]).length - 1)) 0 :=
  percentile_nearest_rank.1 [(3:ℚ), 1] (by decide)

/-- C8: the builder fails (with the empty-input error, modelled `none`)
exactly on the empty entry sequence; every non-empty sequence builds a
matrix. -/
theorem buildFromEntries_none_iff_empty {α : Type} (entries : List (Entry α)) :
    buildFromEntries entries = none ↔ entries = [] := by
  constructor
  · intro h
    by_contra hne
    have hne' : ¬(entries.isEmpty = true) := fun hh => hne (List.isEmpty_iff.mp hh)
    simp only [buildFromEntries, if_neg hne'] at h
    exact Option.noConfusion h
  · intro h
    subst h
    rfl

/-- C8 witness: the empty sequence errors; the example sequence
builds. -/
theorem buildFromEntries_none_iff_empty_witness :
    buildFromEntries ([] : List (Entry Int)) = none :=
  (buildFromEntries_none_iff_empty []).mpr rfl

/-- C9: metrics computation is idempotent: if a call on state `s`
succeeds with result state `s₁` (same matrix dimensions, same real-time
counter state, same non-empty duration sequence), a second call starting
from `s₁` returns `s₁` unchanged in all fields — duration90, FLOPs,
bytes moved, GFLOP/s, bandwidth and arithmetic intensity. -/
theorem computeAllMetrics_idempotent (nnz rows cols : Nat) (durations : List ℚ)
    (s s₁ : MetricsState)
    (h : computeAllMetrics nnz rows cols durations s = some s₁) :
    computeAllMetrics nnz rows cols durations s₁ = some s₁ := by
  by_cases h1 : rows = 0 ∨ cols = 0
  · rw [computeAllMetrics, if_pos h1] at h
    cases h
  by_cases h2 : durations = []
  · rw [computeAllMetrics, if_neg h1, if_pos h2] at h
    cases h
  rw [computeAllMetrics, if_neg h1, if_neg h2] at h
  obtain rfl := Option.some.inj h
  rw [computeAllMetrics, if_neg h1, if_neg h2]
  simp only [selectFlopsBytes_idem]

/-- C9 witness: a 1×1 matrix with one nonzero, cleared counters, one
1 ms sample. -/
theorem computeAllMetrics_idempotent_witness :
    computeAllMetrics 1 1 1 [1] exampleMetricsOut = some exampleMetricsOut :=
  computeAllMetrics_idempotent 1 1 1 [1] ⟨0,0,0,0,0,0⟩ exampleMetricsOut rfl

/-- C10: on a well-formed CSR matrix the instrumented warm-up counters
come out to exactly `flopsMoved = 2*nnz` and
`bytesMoved = 20*nnz + 8*rows` (8 bytes of matrix data + 4 bytes of
column index + 8 bytes of input vector per nonzero, plus 8 bytes of
output per row) — in particular the counted bytes omit the
`4*(rows+1)` rowStart bytes and count input-vector traffic per access
(`8*nnz`) rather than per element (`8*cols`), unlike the estimate
formula of the metrics engine. -/
theorem warmUp_realtime_counters {α : Type} (ops : Ops α) (m : CSRMatrix α)
    (x : List α) (hwf : CSRWellFormed m) :
    (warmUp ops m x).flopsMoved = 2 * m.nnz ∧
    (warmUp ops m x).bytesMoved = 20 * m.nnz + 8 * m.rows := by
  obtain ⟨hb, hf⟩ := warmUp_counters ops m x hwf
  exact ⟨hf, hb⟩

/-- C10 witness: the example matrix (4 nonzeros, 3 rows):
`flops = 8`, `bytes = 104`. -/
theorem warmUp_realtime_counters_witness :
    (warmUp intOps exampleCsr [1,1,1]).flopsMoved = 2 * exampleCsr.nnz ∧
    (warmUp intOps exampleCsr [1,1,1]).bytesMoved =
      20 * exampleCsr.nnz + 8 * exampleCsr.rows :=
  warmUp_realtime_counters intOps exampleCsr [1,1,1] (by decide)

end SpmvBench
